import Mathlib

/-!
Verification of the Hitachi venture-portfolio pipeline.

Shallow embedding of the Python sources under src/:
models/portfolio_models.py, config/portfolio_config.py,
services/portfolio_filtering.py, services/llm_client.py,
services/portfolio_enrichment.py, services/portfolio_scraper.py.

Machine-independent conventions used throughout:
* Python str values are Lean String; str.lower / str.strip / str.title are
  modelled at ASCII level (all inputs of interest are ASCII).
* Python dict literals are association lists; dict semantics (last binding
  for a key wins, missing key gives a default) are made explicit.
* IO effects (HTTP fetches, the hosted LLM) are modelled by passing the
  fetched/parsed result as an explicit argument: a fetch is an
  Option value, the parsed LLM reply is an Option Json value.
* HTML tokenisation is the Python stdlib html.parser event stream; a
  document is modelled as the list of events the tokenizer emits, and the
  repository's handler classes are folds over that list.
-/

/-! ## Data model: models/portfolio_models.py -/

/-- RoundStage enum from models/portfolio_models.py.  In Python it is a
str-valued enum; every variant's string value is non-empty, hence truthy. -/
inductive RoundStage where
  | seed | seriesA | seriesB | seriesC | seriesD
  | seriesE | seriesF | seriesG | ipo | public | unknown
deriving DecidableEq, Repr

/-- Company dataclass from models/portfolio_models.py. -/
structure Company where
  name : String
  website : String
  description : String
  last_round : RoundStage
  source : String
  energy_keywords : Option (List String) := none
  stage : String := ""
  profile_url : String := ""
deriving DecidableEq, Repr

/-! ## Round gate: services/portfolio_filtering.py -/

def EARLY_STAGE_ALLOWED : List RoundStage :=
  [RoundStage.seed, RoundStage.seriesA, RoundStage.seriesB, RoundStage.seriesC]

def LATE_STAGE_BLOCKED : List RoundStage :=
  [RoundStage.seriesD, RoundStage.seriesE, RoundStage.seriesF,
   RoundStage.seriesG, RoundStage.ipo, RoundStage.public]

/-- is_round_eligible from services/portfolio_filtering.py.  The Python
guard `if not round_stage` can only fire for a non-RoundStage argument
(every enum value is a non-empty string, hence truthy), so it does not
appear for the typed argument here. -/
def is_round_eligible (round_stage : RoundStage) : Bool :=
  if round_stage ∈ LATE_STAGE_BLOCKED then false
  else round_stage ∈ EARLY_STAGE_ALLOWED

/-! ## ASCII models of Python str methods -/

/-- Python str.lower at ASCII level (the repository names are ASCII). -/
def pyLower (s : String) : String := String.mk (s.toList.map Char.toLower)

/-! ## SHA-256 (hashlib.sha256), used by the round fallback -/

def w32mask : Nat := 4294967296

def rotr32 (n x : Nat) : Nat := ((x >>> n) ||| (x <<< (32 - n))) % w32mask

def shaCh (x y z : Nat) : Nat := Nat.xor (Nat.land x y) (Nat.land (Nat.xor x 4294967295) z)

def shaMaj (x y z : Nat) : Nat :=
  Nat.xor (Nat.xor (Nat.land x y) (Nat.land x z)) (Nat.land y z)

def sumA0 (x : Nat) : Nat := Nat.xor (Nat.xor (rotr32 2 x) (rotr32 13 x)) (rotr32 22 x)

def sumA1 (x : Nat) : Nat := Nat.xor (Nat.xor (rotr32 6 x) (rotr32 11 x)) (rotr32 25 x)

def sumB0 (x : Nat) : Nat := Nat.xor (Nat.xor (rotr32 7 x) (rotr32 18 x)) (x >>> 3)

def sumB1 (x : Nat) : Nat := Nat.xor (Nat.xor (rotr32 17 x) (rotr32 19 x)) (x >>> 10)

/-- The 64 round constants of FIPS 180-4, written in decimal. -/
def shaK : List Nat :=
  [1116352408, 1899447441, 3049323471, 3921009573, 961987163, 1508970993,
   2453635748, 2870763221, 3624381080, 310598401, 607225278, 1426881987,
   1925078388, 2162078206, 2614888103, 3248222580, 3835390401, 4022224774,
   264347078, 604807628, 770255983, 1249150122, 1555081692, 1996064986,
   2554220882, 2821834349, 2952996808, 3210313671, 3336571891, 3584528711,
   113926993, 338241895, 666307205, 773529912, 1294757372, 1396182291,
   1695183700, 1986661051, 2177026350, 2456956037, 2730485921, 2820302411,
   3259730800, 3345764771, 3516065817, 3600352804, 4094571909, 275423344,
   430227734, 506948616, 659060556, 883997877, 958139571, 1322822218,
   1537002063, 1747873779, 1955562222, 2024104815, 2227730452, 2361852424,
   2428436474, 2756734187, 3204031479, 3329325298]

structure SHAState where
  sa : Nat
  sb : Nat
  sc : Nat
  sd : Nat
  se : Nat
  sf : Nat
  sg : Nat
  sh : Nat
deriving Repr

def shaInit : SHAState :=
  { sa := 1779033703, sb := 3144134277, sc := 1013904242, sd := 2773480762,
    se := 1359893119, sf := 2600822924, sg := 528734635, sh := 1541459225 }

/-- Big-endian 32-bit words from a byte list. -/
def toWords : List Nat → List Nat
  | b0 :: b1 :: b2 :: b3 :: rest =>
      (b0 * 16777216 + b1 * 65536 + b2 * 256 + b3) :: toWords rest
  | _ => []

def scheduleStep (ws : List Nat) : List Nat :=
  let n := ws.length
  ws ++ [(sumB1 (ws.getD (n - 2) 0) + ws.getD (n - 7) 0
          + sumB0 (ws.getD (n - 15) 0) + ws.getD (n - 16) 0) % w32mask]

def schedule (w16 : List Nat) : List Nat :=
  (List.range 48).foldl (fun ws _ => scheduleStep ws) w16

def compressStep (st : SHAState) (kw : Nat × Nat) : SHAState :=
  let t1 := (st.sh + sumA1 st.se + shaCh st.se st.sf st.sg + kw.1 + kw.2) % w32mask
  let t2 := (sumA0 st.sa + shaMaj st.sa st.sb st.sc) % w32mask
  { sa := (t1 + t2) % w32mask, sb := st.sa, sc := st.sb, sd := st.sc,
    se := (st.sd + t1) % w32mask, sf := st.se, sg := st.sf, sh := st.sg }

def processBlock (h0 : SHAState) (block : List Nat) : SHAState :=
  let ws := schedule (toWords block)
  let st := (shaK.zip ws).foldl compressStep h0
  { sa := (h0.sa + st.sa) % w32mask, sb := (h0.sb + st.sb) % w32mask,
    sc := (h0.sc + st.sc) % w32mask, sd := (h0.sd + st.sd) % w32mask,
    se := (h0.se + st.se) % w32mask, sf := (h0.sf + st.sf) % w32mask,
    sg := (h0.sg + st.sg) % w32mask, sh := (h0.sh + st.sh) % w32mask }

def processBlocks (st : SHAState) (bytes : List Nat) : SHAState :=
  match bytes with
  | [] => st
  | b :: rest =>
      processBlocks (processBlock st ((b :: rest).take 64)) ((b :: rest).drop 64)
termination_by bytes.length
decreasing_by simp [List.length_drop]; omega

/-- Big-endian byte expansion of a Nat to a fixed width. -/
def beBytes : Nat → Nat → List Nat
  | 0, _ => []
  | k + 1, n => beBytes k (n / 256) ++ [n % 256]

def padMessage (msg : List Nat) : List Nat :=
  let L := msg.length
  msg ++ [128] ++ List.replicate ((64 + 56 - ((L + 1) % 64)) % 64) 0 ++ beBytes 8 (8 * L)

/-- SHA-256 digest of a byte list, read as the big-endian 256-bit number
that Python's int(hexdigest, 16) produces. -/
def sha256Nat (msg : List Nat) : Nat :=
  let st := processBlocks shaInit (padMessage msg)
  [st.sa, st.sb, st.sc, st.sd, st.se, st.sf, st.sg, st.sh].foldl
    (fun acc h => acc * w32mask + h) 0

/-- UTF-8 encoding of one character (str.encode building block). -/
def utf8Char (c : Char) : List Nat :=
  let n := c.toNat
  if n < 128 then [n]
  else if n < 2048 then [192 ||| (n >>> 6), 128 ||| (n &&& 63)]
  else if n < 65536 then
    [224 ||| (n >>> 12), 128 ||| ((n >>> 6) &&& 63), 128 ||| (n &&& 63)]
  else
    [240 ||| (n >>> 18), 128 ||| ((n >>> 12) &&& 63),
     128 ||| ((n >>> 6) &&& 63), 128 ||| (n &&& 63)]

def utf8Encode (s : String) : List Nat := s.toList.flatMap utf8Char

/-! ## Round fallback: services/portfolio_enrichment.py -/

def roundsFallback : List RoundStage :=
  [RoundStage.seed, RoundStage.seriesA, RoundStage.seriesB,
   RoundStage.seriesC, RoundStage.seriesD]

/-- The private hash-based round fallback from portfolio_enrichment.py:
sha256 of the lowercased UTF-8 name, taken as a number, reduced mod 5,
indexing the early-stage rounds list; empty name short-circuits to Seed. -/
def hash_round_stage (name : String) : RoundStage :=
  if name = "" then RoundStage.seed
  else roundsFallback.getD (sha256Nat (utf8Encode (pyLower name)) % 5) RoundStage.seed

/-! ## JSON values and the bulk classifier: services/llm_client.py -/

/-- Values the Python json module can hand back. -/
inductive Json where
  | jnull
  | jbool (b : Bool)
  | jnum (n : Int)
  | jstr (s : String)
  | jarr (items : List Json)
  | jobj (fields : List (String × Json))
deriving Repr

/-- llm_filter_energy_bulk from services/llm_client.py.  The remote call is
modelled by its observable outcome: `none` covers a missing client, a
transport error or a JSON parse failure (all of which the Python code maps
to the same all-False list), `some v` is the successfully parsed reply. -/
def llm_filter_energy_bulk (descriptions : List String) (resp : Option Json) : List Bool :=
  if descriptions.isEmpty then []
  else
    match resp with
    | none => List.replicate descriptions.length false
    | some (Json.jarr items) =>
        if items.length = descriptions.length then
          items.map (fun item => match item with | Json.jbool b => b | _ => false)
        else List.replicate descriptions.length false
    | some _ => List.replicate descriptions.length false

/-! ## Batch filtering: services/portfolio_filtering.py -/

/-- The (index, company) pairs the filter_relevant loop collects; the pair
component equals companies[index] by construction of enumerate, so keeping
the pair stands in for the source's later companies[idx] lookup. -/
def eligible_pairs (companies : List Company) : List (Nat × Company) :=
  companies.enum.filter
    (fun p => is_round_eligible p.2.last_round && !p.2.description.isEmpty)

def batch_descriptions (companies : List Company) : List String :=
  (eligible_pairs companies).map (fun p => p.2.description)

/-- filter_relevant from services/portfolio_filtering.py, with the
classifier reply passed explicitly (see llm_filter_energy_bulk). -/
def filter_relevant (companies : List Company) (resp : Option Json) : List Company :=
  let descriptions := batch_descriptions companies
  if descriptions.isEmpty then []
  else
    let matchFlags := llm_filter_energy_bulk descriptions resp
    (((eligible_pairs companies).map (fun p => p.2)).zip matchFlags).filterMap
      (fun pm => if pm.2 then some pm.1 else none)

/-! ## Enrichment: services/portfolio_enrichment.py -/

/-- Python dict lookup over an association-list model; a later binding for
the same key overwrites an earlier one, as in a dict built left to right. -/
def dictGet (m : List (String × α)) (k : String) : Option α :=
  m.foldl (fun acc p => if p.1 = k then some p.2 else acc) none

/-- fill_missing_fields from services/portfolio_enrichment.py. -/
def fill_missing_fields (company : Company) (mock_map : List (String × Company)) : Company :=
  match dictGet mock_map (pyLower company.name) with
  | none => company
  | some mock =>
      let company :=
        if company.website = "" then { company with website := mock.website } else company
      if company.last_round = RoundStage.unknown then
        { company with last_round := mock.last_round }
      else company

/-- enrich_round from services/portfolio_enrichment.py.  The Python guard
`if enriched:` is true for every present RoundStage value (each is a
non-empty string) and false exactly for the absent-key None, which the
match below reflects. -/
def enrich_round (company : Company) (round_map : List (String × RoundStage)) : Company :=
  if company.last_round ≠ RoundStage.unknown then company
  else
    match dictGet round_map (pyLower company.name) with
    | some enriched => { company with last_round := enriched }
    | none => { company with last_round := hash_round_stage company.name }

/-! ## String helpers shared by the scraper: services/portfolio_scraper.py -/

/-- Contiguous-sublist test on char lists. -/
def listInfix (needle : List Char) : List Char → Bool
  | [] => needle.isEmpty
  | c :: t => needle.isPrefixOf (c :: t) || listInfix needle t

/-- Substring test, Python `needle in haystack`. -/
def strContains (haystack needle : String) : Bool :=
  listInfix needle.toList haystack.toList

def isWS (c : Char) : Bool := c.isWhitespace

/-- One step of re.sub over a char list: each maximal whitespace run
becomes a single space. -/
def subWS : List Char → List Char
  | [] => []
  | [c] => if isWS c then [' '] else [c]
  | c1 :: c2 :: rest =>
      if isWS c1 && isWS c2 then subWS (c2 :: rest)
      else (if isWS c1 then ' ' else c1) :: subWS (c2 :: rest)

def trimWS (l : List Char) : List Char :=
  (((l.dropWhile isWS).reverse).dropWhile isWS).reverse

/-- The scraper cleaning step re.sub of runs of whitespace to one space
followed by str.strip. -/
def normalizeWS (s : String) : String := String.mk (trimWS (subWS s.toList))

/-- Python str.title at ASCII level: a letter is uppercased when the
previous character is not a letter, and lowercased otherwise. -/
def titleAux (prevCased : Bool) : List Char → List Char
  | [] => []
  | c :: rest =>
      (if c.isAlpha then (if prevCased then c.toLower else c.toUpper) else c)
        :: titleAux c.isAlpha rest

def pyTitle (s : String) : String := String.mk (titleAux false s.toList)

/-- Python str.isupper at ASCII level: some cased character, and no
lowercase cased character. -/
def pyIsUpper (s : String) : Bool :=
  s.toList.any Char.isAlpha && s.toList.all (fun c => !c.isAlpha || c.isUpper)

def startsWithHttp (href : String) : Bool :=
  "http://".toList.isPrefixOf href.toList || "https://".toList.isPrefixOf href.toList

/-! ## The two re patterns of infer_company_name

Faithful backtracking matchers for the two fixed patterns in
services/portfolio_scraper.py.  Candidate lists are produced in exactly
the preference order of the backtracking engine (greedy, earlier choice
points outermost); the first candidate surviving the tail test is the
match, and its group 1 is the returned phrase.  Character classes are the
ASCII classes of the patterns; the possessive-marker class of the source
is the literal four characters found in the file (the three mojibake
characters U+00E2, U+20AC, U+2122, plus the ASCII apostrophe). -/

def tokenChar (c : Char) : Bool :=
  c.isAlphanum || c = '&' || c = '.' || c = '+' || c = '-'

/-- Word character for the \b assertions, ASCII level. -/
def wordChar (c : Char) : Bool := c.isAlphanum || c = '_'

def apos : Char := Char.ofNat 39

def possMarker (c : Char) : Bool :=
  c = Char.ofNat 0xE2 || c = Char.ofNat 0x20AC || c = Char.ofNat 0x2122 || c = apos

/-- Greedy candidates for a cls* piece: prefixes of the maximal run,
longest first, paired with the remaining input. -/
def starCands (p : Char → Bool) (s : List Char) : List (List Char × List Char) :=
  let run := s.takeWhile p
  let rest := s.dropWhile p
  (List.range (run.length + 1)).map
    (fun k => (run.take (run.length - k), run.drop (run.length - k) ++ rest))

/-- Greedy candidates for \s+ : non-empty whitespace prefixes, longest first. -/
def wsPlusCands (s : List Char) : List (List Char × List Char) :=
  (starCands isWS s).filter (fun pr => !pr.1.isEmpty)

/-- Candidates for one capitalised token [A-Z][A-Za-z0-9&.+-]*. -/
def tokenCands (s : List Char) : List (List Char × List Char) :=
  match s with
  | [] => []
  | c :: rest =>
      if c.isUpper then (starCands tokenChar rest).map (fun pr => (c :: pr.1, pr.2))
      else []

/-- Candidates after up to n further repetitions of \s+ token, appended to
an already-matched prefix; extending is preferred over stopping. -/
def repCands : Nat → List Char → List Char → List (List Char × List Char)
  | 0, acc, r => [(acc, r)]
  | n + 1, acc, r =>
      ((wsPlusCands r).flatMap (fun wp =>
        (tokenCands wp.2).flatMap (fun tp =>
          repCands n (acc ++ wp.1 ++ tp.1) tp.2)))
      ++ [(acc, r)]

/-- Candidates for the group: one token then zero to three repetitions. -/
def phraseCands (s : List Char) : List (List Char × List Char) :=
  (tokenCands s).flatMap (fun tp => repCands 3 tp.1 tp.2)

/-- Tail of pattern 1 after the group: a possessive-marker character, the
letter s, and a word boundary. -/
def possTail : List Char → Bool
  | m :: c :: rest =>
      possMarker m && c = 's' &&
        (match rest with | [] => true | d :: _ => !wordChar d)
  | _ => false

/-- re.match of the possessive pattern: group 1 of the first successful
candidate, or none. -/
def matchPossessive (d : List Char) : Option (List Char) :=
  ((phraseCands d).find? (fun pr => possTail pr.2)).map (fun pr => pr.1)

def verbList : List (List Char) :=
  ["is", "are", "provides", "develops", "builds", "offers", "delivers", "enables"].map
    String.toList

/-- Tail of pattern 2 after the group: \s+, one of the verbs, and a word
boundary. -/
def verbTail (r : List Char) : Bool :=
  (wsPlusCands r).any (fun wp =>
    verbList.any (fun v =>
      v.isPrefixOf wp.2 &&
        (match wp.2.drop v.length with | [] => true | d :: _ => !wordChar d)))

/-- re.search of the verb pattern: start positions are tried left to
right; a start needs the \b assertion (previous character absent or not a
word character); the group of the first overall success is returned. -/
def searchVerb (prev : Option Char) (s : List Char) : Option (List Char) :=
  match s with
  | [] => none
  | c :: rest =>
      let boundaryOK := match prev with | none => true | some p => !wordChar p
      match (if boundaryOK then (phraseCands s).find? (fun pr => verbTail pr.2) else none) with
      | some pr => some pr.1
      | none => searchVerb (some c) rest

def matchVerbPhrase (d : List Char) : Option (List Char) := searchVerb none d

/-! ## Hostname extraction (urllib.parse.urlparse(...).hostname) -/

def schemeChar (c : Char) : Bool := c.isAlphanum || c = '+' || c = '-' || c = '.'

/-- urlsplit scheme removal: a leading letter-initiated run of scheme
characters up to a colon is dropped together with the colon. -/
def dropScheme (u : List Char) : List Char :=
  let before := u.takeWhile (fun c => c ≠ ':')
  match u.dropWhile (fun c => c ≠ ':') with
  | [] => u
  | _ :: rest =>
      match before with
      | [] => u
      | c0 :: restSch => if c0.isAlpha && restSch.all schemeChar then rest else u

/-- urlsplit netloc: present only after a literal double slash, up to the
next slash, question mark or hash. -/
def netlocOf (u : List Char) : List Char :=
  match dropScheme u with
  | '/' :: '/' :: r => r.takeWhile (fun c => c ≠ '/' && c ≠ '?' && c ≠ '#')
  | _ => []

/-- urlparse(...).hostname for the URL shapes the scraper sees: netloc
with userinfo (up to the last at sign) and port (after a colon) removed,
lowercased.  IPv6 bracket syntax is not modelled. -/
def hostnameOf (url : List Char) : List Char :=
  let hostinfo := ((netlocOf url).reverse.takeWhile (fun c => c ≠ '@')).reverse
  (hostinfo.takeWhile (fun c => c ≠ ':')).map Char.toLower

/-- Python host.replace of every occurrence of the four characters w w w
dot by the empty string, scanning left to right without rescanning. -/
def stripWWWall : List Char → List Char
  | 'w' :: 'w' :: 'w' :: '.' :: rest => stripWWWall rest
  | c :: rest => c :: stripWWWall rest
  | [] => []

/-! ## infer_company_name: services/portfolio_scraper.py -/

def infer_company_name (description website : String) : String :=
  match (if description ≠ "" then matchPossessive description.toList else none) with
  | some g => (String.mk g).trim
  | none =>
    match (if description ≠ "" then matchVerbPhrase description.toList else none) with
    | some g => (String.mk g).trim
    | none =>
      if website ≠ "" then
        let host := stripWWWall (hostnameOf website.toList)
        if host ≠ [] then
          pyTitle (String.mk
            ((host.takeWhile (fun c => c ≠ '.')).map
              (fun c => if c = '-' || c = '_' then ' ' else c)))
        else "Unknown"
      else "Unknown"

/-! ## HTML documents as html.parser event streams

The Python extractors subclass html.parser.HTMLParser; feeding a document
produces a stream of start-tag, end-tag and data events that the handler
methods consume.  The stdlib tokenizer itself is outside src/, so a
document is modelled here directly as its event list, and each handler
class as a fold over that list. -/

inductive HtmlEvent where
  | startTag (tag : String) (attrs : List (String × String))
  | endTag (tag : String)
  | dataEv (text : String)
deriving DecidableEq, Repr

/-- The attr_map dict comprehension used by several handlers: keys are
lowercased, a later duplicate key wins, a missing key gives the empty
string (which also stands for Python None values). -/
def attrMapGet (attrs : List (String × String)) (key : String) : String :=
  attrs.foldl (fun acc p => if pyLower p.1 = key then p.2 else acc) ""

/-! ### AnchorTextParser -/

def anchorTextStep (st : Bool × List String) (e : HtmlEvent) : Bool × List String :=
  match e with
  | HtmlEvent.startTag tag _ => if pyLower tag = "a" then (true, st.2) else st
  | HtmlEvent.endTag tag => if pyLower tag = "a" then (false, st.2) else st
  | HtmlEvent.dataEv s =>
      if st.1 then
        let t := s.trim
        if t ≠ "" then (st.1, st.2 ++ [t]) else st
      else st

def anchorTexts (doc : List HtmlEvent) : List String :=
  (doc.foldl anchorTextStep (false, [])).2

/-! ### AnchorLinkParser -/

structure ALState where
  in_anchor : Bool
  current_href : String
  links : List (String × String)

def anchorLinkStep (st : ALState) (e : HtmlEvent) : ALState :=
  match e with
  | HtmlEvent.startTag tag attrs =>
      if pyLower tag = "a" then
        -- the for/break loop keeps the first attr with key href and a
        -- non-empty (truthy) value
        let href := ((attrs.find? (fun p => pyLower p.1 = "href" && p.2 ≠ "")).map
          (fun p => p.2)).getD ""
        { st with in_anchor := true, current_href := href }
      else st
  | HtmlEvent.endTag tag =>
      if pyLower tag = "a" then { st with in_anchor := false, current_href := "" }
      else st
  | HtmlEvent.dataEv s =>
      if st.in_anchor && st.current_href ≠ "" then
        let t := s.trim
        if t ≠ "" then { st with links := st.links ++ [(t, st.current_href)] } else st
      else st

def anchorLinks (doc : List HtmlEvent) : List (String × String) :=
  (doc.foldl anchorLinkStep { in_anchor := false, current_href := "", links := [] }).links

/-! ### extract_company_names_from_html -/

/-- The cleaning and length filter applied to the collected anchor texts. -/
def filteredNames (anchors : List String) : List String :=
  anchors.filterMap (fun text =>
    let cleaned := normalizeWS text
    if 2 ≤ cleaned.length ∧ cleaned.length ≤ 60 then some cleaned else none)

/-- The seen-set deduplication loop: first occurrence of each lowercased
form wins, order preserved. -/
def dedupCI (seen : List String) : List String → List String
  | [] => []
  | n :: rest =>
      if pyLower n ∈ seen then dedupCI seen rest
      else n :: dedupCI (pyLower n :: seen) rest

def clean_names (anchors : List String) : List String :=
  dedupCI [] (filteredNames anchors)

def extract_company_names_from_html (doc : List HtmlEvent) : List String :=
  clean_names (anchorTexts doc)

/-! ### extract_company_entries_from_html -/

def entriesDedup (seen : List String) : List (String × String) → List (String × String)
  | [] => []
  | (text, href) :: rest =>
      let cleaned := normalizeWS text
      if ¬(2 ≤ cleaned.length ∧ cleaned.length ≤ 60) then entriesDedup seen rest
      else if ¬startsWithHttp href then entriesDedup seen rest
      else if pyLower cleaned ∈ seen then entriesDedup seen rest
      else (cleaned, href) :: entriesDedup (pyLower cleaned :: seen) rest

def extract_company_entries_from_html (doc : List HtmlEvent) : List (String × String) :=
  entriesDedup [] (anchorLinks doc)

/-! ### EIPPortfolioParser -/

structure EIPState where
  in_overlay : Bool
  in_text : Bool
  depth : Int
  cur_desc : List String
  cur_site : String
  entries : List (String × String)

def eipInit : EIPState :=
  { in_overlay := false, in_text := false, depth := 0,
    cur_desc := [], cur_site := "", entries := [] }

def eipStart (st : EIPState) (tag : String) (attrs : List (String × String)) : EIPState :=
  let t := pyLower tag
  let cls := attrMapGet attrs "class"
  let st :=
    if t = "div" && strContains cls "portfolio-item-overlay" then
      { st with in_overlay := true, depth := 1, cur_desc := [], cur_site := "" }
    else if st.in_overlay && t = "div" then { st with depth := st.depth + 1 }
    else st
  let st :=
    if st.in_overlay && t = "div" && strContains cls "text" then
      { st with in_text := true }
    else st
  if st.in_overlay && t = "a" && strContains cls "portfolio-site-url" then
    let href := attrMapGet attrs "href"
    if href ≠ "" then { st with cur_site := href } else st
  else st

def eipEnd (st : EIPState) (tag : String) : EIPState :=
  let t := pyLower tag
  let st :=
    if st.in_overlay && t = "div" && st.in_text then { st with in_text := false } else st
  if st.in_overlay && t = "div" then
    let d := st.depth - 1
    if d > 0 then { st with depth := d }
    else
      let description := (String.intercalate " " st.cur_desc).trim
      let entries :=
        if description ≠ "" || st.cur_site ≠ "" then
          st.entries ++ [(description, st.cur_site)]
        else st.entries
      { st with depth := d, in_overlay := false, entries := entries }
  else st

def eipData (st : EIPState) (s : String) : EIPState :=
  if st.in_overlay && st.in_text then
    let t := s.trim
    if t ≠ "" then { st with cur_desc := st.cur_desc ++ [t] } else st
  else st

def eipEntries (doc : List HtmlEvent) : List (String × String) :=
  (doc.foldl (fun st e =>
    match e with
    | HtmlEvent.startTag tag attrs => eipStart st tag attrs
    | HtmlEvent.endTag tag => eipEnd st tag
    | HtmlEvent.dataEv s => eipData st s) eipInit).entries

/-! ### SetVenturesParser -/

def setEntries (doc : List HtmlEvent) : List (String × String) :=
  doc.foldl (fun acc e =>
    match e with
    | HtmlEvent.startTag tag attrs =>
        if pyLower tag = "a" && strContains (attrMapGet attrs "class") "nectar-post-grid-link" then
          let nm := (attrMapGet attrs "aria-label").trim
          let href := (attrMapGet attrs "href").trim
          if nm ≠ "" && href ≠ "" then acc ++ [(nm, href)] else acc
        else acc
    | _ => acc) []

/-! ### build_company_from_name and scrape_portfolio -/

def build_company_from_name (name source : String) (website : String := "")
    (description : String := "") (profile_url : String := "") : Company :=
  { name := name, website := website, description := description,
    last_round := RoundStage.unknown, source := source,
    energy_keywords := none, stage := "", profile_url := profile_url }

/-- scrape_portfolio from services/portfolio_scraper.py.  The fetch_html
call is modelled by its outcome: none covers every no-document case (HTTP
error, timeout, transport error); an empty document behaves like a
document with no events, which every branch below sends to the same
fallback result as the none case. -/
def scrape_portfolio (url source : String) (fallback : List Company)
    (fetched : Option (List HtmlEvent)) : List Company :=
  match fetched with
  | none => fallback
  | some doc =>
      if strContains url "energyimpactpartners.com" then
        -- each EIP entry is (description, website)
        let companies := (eipEntries doc).map (fun e =>
          build_company_from_name (infer_company_name e.1 e.2) source e.2 e.1)
        if companies.isEmpty then fallback else companies
      else if strContains url "setventures.com" then
        let companies := (setEntries doc).map (fun e =>
          let clean_name := if pyIsUpper e.1 then pyTitle e.1 else e.1
          build_company_from_name clean_name source "" "" e.2)
        if companies.isEmpty then fallback else companies
      else
        let entries := extract_company_entries_from_html doc
        if ¬entries.isEmpty then
          entries.map (fun e => build_company_from_name e.1 source e.2)
        else
          let names := extract_company_names_from_html doc
          if names.isEmpty then fallback
          else names.map (fun n => build_company_from_name n source)

/-! ### Profile-page enrichment: services/portfolio_enrichment.py -/

structure MetaState where
  meta_description : String
  og_description : String
  first_paragraph : String
  in_paragraph : Bool

def metaInit : MetaState :=
  { meta_description := "", og_description := "", first_paragraph := "",
    in_paragraph := false }

def metaStart (st : MetaState) (tag : String) (attrs : List (String × String)) : MetaState :=
  let st :=
    if pyLower tag = "meta" then
      let nm := pyLower (attrMapGet attrs "name")
      let prop := pyLower (attrMapGet attrs "property")
      let content := (attrMapGet attrs "content").trim
      let st :=
        if nm = "description" && content ≠ "" && st.meta_description = "" then
          { st with meta_description := content }
        else st
      if prop = "og:description" && content ≠ "" && st.og_description = "" then
        { st with og_description := content }
      else st
    else st
  if pyLower tag = "p" && st.first_paragraph = "" then { st with in_paragraph := true }
  else st

def metaEnd (st : MetaState) (tag : String) : MetaState :=
  if pyLower tag = "p" then { st with in_paragraph := false } else st

def metaData (st : MetaState) (s : String) : MetaState :=
  if st.in_paragraph && st.first_paragraph = "" then
    let t := s.trim
    if t ≠ "" then { st with first_paragraph := t } else st
  else st

def metaParse (doc : List HtmlEvent) : MetaState :=
  doc.foldl (fun st e =>
    match e with
    | HtmlEvent.startTag tag attrs => metaStart st tag attrs
    | HtmlEvent.endTag tag => metaEnd st tag
    | HtmlEvent.dataEv s => metaData st s) metaInit

/-- _ExternalLinkParser: the first absolute http(s) anchor target not
pointing back at setventures.com. -/
def firstExternalLink (doc : List HtmlEvent) : String :=
  doc.foldl (fun acc e =>
    match e with
    | HtmlEvent.startTag tag attrs =>
        if pyLower tag = "a" then
          let href := attrMapGet attrs "href"
          if href = "" || ¬startsWithHttp href then acc
          else if strContains href "setventures.com" then acc
          else if acc = "" then href else acc
        else acc
    | _ => acc) ""

/-- enrich_from_vc_profile from services/portfolio_enrichment.py, with the
profile-page fetch modelled by its outcome (none covers fetch failure and
the falsy empty page, both of which leave the record unchanged). -/
def enrich_from_vc_profile (company : Company) (fetched : Option (List HtmlEvent)) : Company :=
  if company.description ≠ "" then company
  else if company.profile_url = "" then company
  else
    match fetched with
    | none => company
    | some doc =>
        let ps := metaParse doc
        let description :=
          if ps.meta_description ≠ "" then ps.meta_description
          else if ps.og_description ≠ "" then ps.og_description
          else ps.first_paragraph
        let company :=
          if description ≠ "" then { company with description := description } else company
        if company.website = "" then
          let link := firstExternalLink doc
          if link ≠ "" then { company with website := link } else company
        else company

/-! ## Spec-side definitions used to state the claims -/

/-- Spec-side: the round-gate survivors with non-empty description, in
their original relative order. -/
def survivors (companies : List Company) : List Company :=
  companies.filter (fun c => is_round_eligible c.last_round && !c.description.isEmpty)

/-- Spec-side: keep exactly the companies whose positional flag is true. -/
def selectByFlags (cs : List Company) (bs : List Bool) : List Company :=
  (cs.zip bs).filterMap (fun p => if p.2 then some p.1 else none)

/-- The website-derived name as the code computes it: every occurrence of
the four characters w w w dot removed from the hostname; none when the
website is empty or no hostname remains. -/
def websiteLabelAllStripped (website : String) : Option String :=
  if website ≠ "" then
    let host := stripWWWall (hostnameOf website.toList)
    if host ≠ [] then
      some (pyTitle (String.mk
        ((host.takeWhile (fun c => c ≠ '.')).map
          (fun c => if c = '-' || c = '_' then ' ' else c))))
    else none
  else none

/-- The website-derived name as claim C6 words it: only a leading
`www.` is stripped from the hostname. -/
def websiteLabelLeadingStripped (website : String) : Option String :=
  if website ≠ "" then
    let host0 := hostnameOf website.toList
    let host := if "www.".toList.isPrefixOf host0 then host0.drop 4 else host0
    if host ≠ [] then
      some (pyTitle (String.mk
        ((host.takeWhile (fun c => c ≠ '.')).map
          (fun c => if c = '-' || c = '_' then ' ' else c))))
    else none
  else none

/-- The amended claim C6 as a priority chain: possessive phrase, then
verb phrase, then website label (with every `www.` occurrence removed),
then the Unknown sentinel. -/
def inferNameAmended (description website : String) : String :=
  match (matchPossessive description.toList).map (fun g => (String.mk g).trim) with
  | some n => n
  | none =>
    match (matchVerbPhrase description.toList).map (fun g => (String.mk g).trim) with
    | some n => n
    | none =>
      match websiteLabelAllStripped website with
      | some n => n
      | none => "Unknown"

/-! ### Concrete fixtures for witnesses and counterexamples -/

def gridCo : Company :=
  { name := "GridPulse", website := "https://gridpulse.example.com",
    description := "Smart grid analytics for utility operators.",
    last_round := RoundStage.seriesA, source := "EIP" }

def lateCo : Company :=
  { name := "VoltStor", website := "https://voltstor.example.com",
    description := "Long-duration energy storage systems for renewables.",
    last_round := RoundStage.seriesD, source := "EIP" }

def blankCo : Company :=
  { name := "Acme", website := "", description := "",
    last_round := RoundStage.unknown, source := "EIP" }

/-- Spec-side for the first generic pass: the cleaned (name, href) pairs
that survive the length filter and the absolute-http filter, before the
case-insensitive dedup. -/
def filteredEntries (links : List (String × String)) : List (String × String) :=
  links.filterMap (fun e =>
    let cleaned := normalizeWS e.1
    if (2 ≤ cleaned.length ∧ cleaned.length ≤ 60) ∧ startsWithHttp e.2 = true then
      some (cleaned, e.2)
    else none)

/-- Anchor (text, href) pairs exercising the first generic pass: a
case-insensitive duplicate, a too-short name, and a non-http target. -/
def demoLinks : List (String × String) :=
  [("Flux  Charge", "https://fluxcharge.example.com"),
   ("FLUX CHARGE", "http://dupe.example.com"),
   ("B", "https://b.example.com"),
   ("Good Name", "ftp://nope.example.com")]

/-! ## Helper lemmas -/

theorem pyLower_eq_empty_iff (s : String) : pyLower s = "" ↔ s = "" := by
  simp [pyLower, String.ext_iff, String.toList]

theorem roundsFallback_getD_mem (i : Nat) :
    roundsFallback.getD (i % 5) RoundStage.seed ∈ roundsFallback := by
  have h : i % 5 = 0 ∨ i % 5 = 1 ∨ i % 5 = 2 ∨ i % 5 = 3 ∨ i % 5 = 4 := by omega
  rcases h with h | h | h | h | h <;> rw [h] <;> decide

theorem hash_round_mem (name : String) : hash_round_stage name ∈ roundsFallback := by
  unfold hash_round_stage
  split
  · decide
  · exact roundsFallback_getD_mem _

theorem dictGet_foldl_mem {α : Type} (m : List (String × α)) (k : String) (v : α) :
    ∀ acc : Option α,
      m.foldl (fun acc p => if p.1 = k then some p.2 else acc) acc = some v →
      acc = some v ∨ ∃ p ∈ m, p.2 = v := by
  induction m with
  | nil => exact fun acc h => Or.inl h
  | cons q t ih =>
    intro acc h
    rcases ih _ h with h' | ⟨p, hp, hv⟩
    · have h'' : (if q.1 = k then some q.2 else acc) = some v := h'
      by_cases hq : q.1 = k
      · rw [if_pos hq] at h''
        exact Or.inr ⟨q, List.mem_cons_self q t, Option.some.inj h''⟩
      · rw [if_neg hq] at h''
        exact Or.inl h''
    · exact Or.inr ⟨p, List.mem_cons_of_mem _ hp, hv⟩

theorem dictGet_mem {α : Type} (m : List (String × α)) (k : String) (v : α)
    (h : dictGet m k = some v) : ∃ p ∈ m, p.2 = v := by
  rcases dictGet_foldl_mem m k v none h with h' | h'
  · exact Option.noConfusion h'
  · exact h'

/-! ## Claim C1 -/

/-- C1: is_round_eligible accepts exactly Seed, Series A, Series B and
Series C; every later stage and Unknown is rejected. -/
theorem c1_round_gate (r : RoundStage) :
    is_round_eligible r = true ↔
      (r = RoundStage.seed ∨ r = RoundStage.seriesA
        ∨ r = RoundStage.seriesB ∨ r = RoundStage.seriesC) := by
  cases r <;> decide

/-! ## Claim C2 -/

/-- C2: the hash-based round fallback always lands in the five
early-stage rounds, depends only on the lowercased name, and sends the
empty name to Seed. -/
theorem c2_hash_round_deterministic (n1 n2 : String) (h : pyLower n1 = pyLower n2) :
    hash_round_stage n1 ∈ roundsFallback
    ∧ hash_round_stage n1 = hash_round_stage n2
    ∧ hash_round_stage "" = RoundStage.seed := by
  refine ⟨hash_round_mem n1, ?_, rfl⟩
  unfold hash_round_stage
  by_cases h1 : n1 = ""
  · have h2 : n2 = "" := by
      rw [← pyLower_eq_empty_iff, ← h, h1]
      rfl
    rw [h1, h2]
  · have h2 : n2 ≠ "" := by
      intro h2
      exact h1 (by rw [← pyLower_eq_empty_iff, h, h2]; rfl)
    rw [if_neg h1, if_neg h2, h]

theorem c2_hash_round_witness :
    pyLower "Acme" = pyLower "ACME"
    ∧ hash_round_stage "Acme" = hash_round_stage "ACME" := by
  have h : pyLower "Acme" = pyLower "ACME" := by decide
  exact ⟨h, (c2_hash_round_deterministic "Acme" "ACME" h).2.1⟩

/-! ## Claim C4 -/

/-- C4: neither fill_missing_fields nor enrich_round ever overwrites a
known (non-Unknown) funding round. -/
theorem c4_non_unknown_round_preserved (c : Company)
    (mock_map : List (String × Company)) (round_map : List (String × RoundStage))
    (h : c.last_round ≠ RoundStage.unknown) :
    (fill_missing_fields c mock_map).last_round = c.last_round
    ∧ (enrich_round c round_map).last_round = c.last_round := by
  constructor
  · unfold fill_missing_fields
    cases dictGet mock_map (pyLower c.name) with
    | none => rfl
    | some mock => by_cases hw : c.website = "" <;> simp [hw, h]
  · unfold enrich_round
    rw [if_pos h]

theorem c4_witness :
    gridCo.last_round ≠ RoundStage.unknown
    ∧ (fill_missing_fields gridCo []).last_round = gridCo.last_round
    ∧ (enrich_round gridCo []).last_round = gridCo.last_round := by
  have h : gridCo.last_round ≠ RoundStage.unknown := by decide
  have hc := c4_non_unknown_round_preserved gridCo [] [] h
  exact ⟨h, hc.1, hc.2⟩

/-! ## Claim C5 -/

/-- C5 fails as stated: with a round map that itself maps a name to
Unknown, enrich_round copies that value and the final state is Unknown. -/
theorem c5_counterexample :
    (enrich_round blankCo [("acme", RoundStage.unknown)]).last_round
      = RoundStage.unknown := by decide

/-- C5 amended: for every round map whose entries all carry a
non-Unknown round, enrich_round never leaves Unknown as the final state:
either the map supplies a round or the hash fallback assigns one. -/
theorem c5_amended_no_unknown_after_enrich (c : Company)
    (round_map : List (String × RoundStage))
    (h : ∀ p ∈ round_map, p.2 ≠ RoundStage.unknown) :
    (enrich_round c round_map).last_round ≠ RoundStage.unknown := by
  unfold enrich_round
  by_cases hc : c.last_round ≠ RoundStage.unknown
  · rw [if_pos hc]
    exact hc
  · rw [if_neg hc]
    cases hget : dictGet round_map (pyLower c.name) with
    | some r =>
      obtain ⟨p, hp, hv⟩ := dictGet_mem _ _ _ hget
      simpa using hv ▸ h p hp
    | none =>
      have hm := hash_round_mem c.name
      have hu : RoundStage.unknown ∉ roundsFallback := by decide
      intro hcontra
      exact hu (hcontra ▸ hm)

theorem c5_amended_witness :
    (∀ p ∈ [("acme", RoundStage.seriesB)], p.2 ≠ RoundStage.unknown)
    ∧ (enrich_round blankCo [("acme", RoundStage.seriesB)]).last_round
        ≠ RoundStage.unknown := by
  have h : ∀ p ∈ [("acme", RoundStage.seriesB)], p.2 ≠ RoundStage.unknown := by decide
  exact ⟨h, c5_amended_no_unknown_after_enrich blankCo _ h⟩

/-! ## Claim C6 -/

theorem infer_eq_amended (d w : String) : infer_company_name d w = inferNameAmended d w := by
  have h1 : matchPossessive ([] : List Char) = none := rfl
  have h2 : matchVerbPhrase ([] : List Char) = none := rfl
  unfold infer_company_name inferNameAmended websiteLabelAllStripped
  by_cases hd : d = ""
  · subst hd
    by_cases hw : w = ""
    · simp [h1, h2, hw]
    · by_cases hh : stripWWWall (hostnameOf w.data) = [] <;>
        simp [h1, h2, hw, hh, String.toList]
  · simp only [if_pos hd]
    cases hmp : matchPossessive d.toList with
    | some g => simp [hmp]
    | none =>
      cases hmv : matchVerbPhrase d.toList with
      | some g => simp [hmp, hmv]
      | none =>
        by_cases hw : w = ""
        · simp [hmp, hmv, hw]
        · by_cases hh : stripWWWall (hostnameOf w.data) = [] <;>
            simp [hmp, hmv, hw, hh, String.toList]

/-- C6 fails as stated on the website fallback: the code removes every
occurrence of the four characters w w w dot from the hostname, not only a
leading one, so the hostname awww.foo.com gives Afoo where the claimed
leading-strip reading gives Awww. -/
theorem c6_counterexample :
    websiteLabelLeadingStripped "https://awww.foo.com" = some "Awww"
    ∧ infer_company_name "" "https://awww.foo.com" = "Afoo"
    ∧ infer_company_name "" "https://awww.foo.com"
        ≠ (websiteLabelLeadingStripped "https://awww.foo.com").getD "Unknown" := by
  decide

/-- C6 amended: infer_company_name applies exactly the claimed priority
order (leading possessive phrase, then verb phrase, then website-derived
label, then the Unknown sentinel), with the website label taken from the
hostname after removing every occurrence of the substring made of w w w
dot; the empty description with the sunpeak website yields Sunpeak. -/
theorem c6_name_inference_priority :
    (∀ d w, infer_company_name d w = inferNameAmended d w)
    ∧ infer_company_name "" "https://www.sunpeak.example.com" = "Sunpeak" := by
  refine ⟨infer_eq_amended, ?_⟩
  decide

/-! ## Claim C7: whitespace-normalisation lemmas -/

theorem subWS_cons_head (r : List Char) :
    ∀ c, ∃ t, subWS (c :: r) = (if isWS c then (' ' : Char) else c) :: t := by
  induction r with
  | nil =>
    intro c
    exact ⟨[], by by_cases h : isWS c <;> simp [subWS, h]⟩
  | cons c2 r ih =>
    intro c
    by_cases h12 : isWS c && isWS c2
    · obtain ⟨t, ht⟩ := ih c2
      obtain ⟨hc, hc2⟩ : isWS c = true ∧ isWS c2 = true := by simpa using h12
      refine ⟨t, ?_⟩
      rw [show subWS (c :: c2 :: r) = subWS (c2 :: r) from by simp [subWS, h12]]
      rw [ht, hc, hc2]
      simp
    · exact ⟨subWS (c2 :: r), by simp [subWS, h12]⟩

theorem subWS_spaces (l : List Char) : ∀ c ∈ subWS l, isWS c → c = ' ' := by
  induction l with
  | nil => simp [subWS]
  | cons c1 t ih =>
    cases t with
    | nil =>
      intro c hc hw
      by_cases h : isWS c1 <;> simp [subWS, h] at hc <;> subst hc
      · rfl
      · exact absurd hw (by simpa using h)
    | cons c2 r =>
      intro c hc hw
      by_cases h12 : isWS c1 && isWS c2
      · rw [show subWS (c1 :: c2 :: r) = subWS (c2 :: r) from by simp [subWS, h12]] at hc
        exact ih c hc hw
      · rw [show subWS (c1 :: c2 :: r)
            = (if isWS c1 then ' ' else c1) :: subWS (c2 :: r) from by simp [subWS, h12]] at hc
        rcases List.mem_cons.mp hc with rfl | hc'
        · by_cases h1 : isWS c1
          · simp [h1]
          · rw [if_neg h1] at hw ⊢
            exact absurd hw (by simpa using h1)
        · exact ih c hc' hw

theorem subWS_chain (l : List Char) :
    (subWS l).Chain' (fun a b => ¬(isWS a = true ∧ isWS b = true)) := by
  induction l with
  | nil => simp [subWS]
  | cons c1 t ih =>
    cases t with
    | nil => by_cases h : isWS c1 <;> simp [subWS, h]
    | cons c2 r =>
      by_cases h12 : isWS c1 && isWS c2
      · rw [show subWS (c1 :: c2 :: r) = subWS (c2 :: r) from by simp [subWS, h12]]
        exact ih
      · rw [show subWS (c1 :: c2 :: r)
            = (if isWS c1 then ' ' else c1) :: subWS (c2 :: r) from by simp [subWS, h12]]
        obtain ⟨t2, ht2⟩ := subWS_cons_head r c2
        rw [ht2]
        rw [List.chain'_cons]
        constructor
        · have hno : ¬(isWS c1 = true ∧ isWS c2 = true) := by
            simpa [Bool.and_eq_true] using h12
          have hws : isWS ' ' = true := rfl
          by_cases h1 : isWS c1 <;> by_cases h2 : isWS c2 <;> simp_all
        · rw [← ht2]
          exact ih

theorem subWS_eq_self (l : List Char)
    (hsp : ∀ c ∈ l, isWS c → c = ' ')
    (hch : l.Chain' (fun a b => ¬(isWS a = true ∧ isWS b = true))) :
    subWS l = l := by
  induction l with
  | nil => rfl
  | cons c1 t ih =>
    cases t with
    | nil =>
      by_cases h : isWS c1
      · have h1 := hsp c1 (List.mem_cons_self _ _) h
        simp [subWS, h, h1]
      · simp [subWS, h]
    | cons c2 r =>
      have hno := (List.chain'_cons.mp hch).1
      have h12 : ¬(isWS c1 && isWS c2) = true := by
        simpa [Bool.and_eq_true] using hno
      rw [show subWS (c1 :: c2 :: r)
          = (if isWS c1 then ' ' else c1) :: subWS (c2 :: r) from by simp [subWS, h12]]
      have htail : subWS (c2 :: r) = c2 :: r :=
        ih (fun c hc hw => hsp c (List.mem_cons_of_mem _ hc) hw) (List.chain'_cons.mp hch).2
      rw [htail]
      by_cases h1 : isWS c1
      · rw [if_pos h1, hsp c1 (List.mem_cons_self _ _) h1]
      · rw [if_neg h1]

theorem dropWhile_head_not (p : Char → Bool) (l : List Char) :
    ∀ c, (l.dropWhile p).head? = some c → p c = false := by
  induction l with
  | nil => intro c h; simp at h
  | cons a t ih =>
    intro c h
    by_cases hp : p a
    · rw [List.dropWhile_cons_of_pos hp] at h
      exact ih c h
    · rw [List.dropWhile_cons_of_neg hp] at h
      simp only [List.head?_cons, Option.some.injEq] at h
      subst h
      simpa using hp

theorem dropWhile_eq_self_of_head (p : Char → Bool) (l : List Char)
    (h : ∀ c, l.head? = some c → p c = false) : l.dropWhile p = l := by
  cases l with
  | nil => rfl
  | cons a t => simp [List.dropWhile_cons, h a rfl]

theorem dropWhile_idem (p : Char → Bool) (l : List Char) :
    (l.dropWhile p).dropWhile p = l.dropWhile p :=
  dropWhile_eq_self_of_head _ _ (dropWhile_head_not p l)

theorem trimWS_isPrefixOf (l : List Char) : trimWS l <+: l.dropWhile isWS := by
  unfold trimWS
  have hs : ((l.dropWhile isWS).reverse.dropWhile isWS) <:+ (l.dropWhile isWS).reverse :=
    List.dropWhile_suffix isWS
  have := hs.reverse
  rwa [List.reverse_reverse] at this

theorem prefix_head?_eq {l1 l2 : List Char} (h : l1 <+: l2) (hne : l1 ≠ []) :
    l2.head? = l1.head? := by
  obtain ⟨t, rfl⟩ := h
  cases l1 with
  | nil => exact absurd rfl hne
  | cons a s => rfl

theorem trimWS_idem (l : List Char) : trimWS (trimWS l) = trimWS l := by
  by_cases hne : trimWS l = []
  · rw [hne]
    rfl
  · have hpre : trimWS l <+: l.dropWhile isWS := trimWS_isPrefixOf l
    have hhead : ∀ c, (trimWS l).head? = some c → isWS c = false := by
      intro c hc
      apply dropWhile_head_not isWS l c
      rw [prefix_head?_eq hpre hne]
      exact hc
    have h1 : (trimWS l).dropWhile isWS = trimWS l :=
      dropWhile_eq_self_of_head _ _ hhead
    show ((((trimWS l).dropWhile isWS).reverse).dropWhile isWS).reverse = trimWS l
    rw [h1]
    have h2 : (trimWS l).reverse = ((l.dropWhile isWS).reverse).dropWhile isWS := by
      unfold trimWS
      rw [List.reverse_reverse]
    rw [h2, dropWhile_idem, ← h2, List.reverse_reverse]

theorem trimWS_subset (l : List Char) : ∀ c ∈ trimWS l, c ∈ l := by
  intro c hc
  have h1 : c ∈ l.dropWhile isWS := (trimWS_isPrefixOf l).sublist.subset hc
  exact (List.dropWhile_sublist isWS).subset h1

theorem trimWS_chain (l : List Char)
    (h : l.Chain' (fun a b => ¬(isWS a = true ∧ isWS b = true))) :
    (trimWS l).Chain' (fun a b => ¬(isWS a = true ∧ isWS b = true)) := by
  have hsym : ∀ (m : List Char),
      m.Chain' (fun a b => ¬(isWS a = true ∧ isWS b = true)) →
      m.reverse.Chain' (fun a b => ¬(isWS a = true ∧ isWS b = true)) := by
    intro m hm
    rw [List.chain'_reverse]
    exact hm.imp (fun a b hab => by
      intro hc
      exact hab ⟨hc.2, hc.1⟩)
  have h1 : (l.dropWhile isWS).Chain' _ := h.suffix (List.dropWhile_suffix isWS)
  have h2 := hsym _ h1
  have h3 : (((l.dropWhile isWS).reverse).dropWhile isWS).Chain' _ :=
    h2.suffix (List.dropWhile_suffix isWS)
  exact hsym _ h3

theorem normalizeWS_idem (s : String) : normalizeWS (normalizeWS s) = normalizeWS s := by
  unfold normalizeWS
  rw [show (String.mk (trimWS (subWS s.toList))).toList = trimWS (subWS s.toList) from rfl]
  have hsp : ∀ c ∈ trimWS (subWS s.toList), isWS c → c = ' ' :=
    fun c hc => subWS_spaces s.toList c (trimWS_subset _ c hc)
  have hch := trimWS_chain _ (subWS_chain s.toList)
  rw [subWS_eq_self _ hsp hch, trimWS_idem]

/-! ## Claim C7: dedup lemmas -/

theorem dedupCI_sublist (l : List String) :
    ∀ seen, (dedupCI seen l).Sublist l := by
  induction l with
  | nil => intro seen; simp [dedupCI]
  | cons n t ih =>
    intro seen
    by_cases h : pyLower n ∈ seen
    · rw [dedupCI, if_pos h]
      exact (ih seen).cons n
    · rw [dedupCI, if_neg h]
      exact (ih _).cons₂ n

theorem dedupCI_lower_mem (l : List String) :
    ∀ seen z, z ∈ (dedupCI seen l).map pyLower ↔ z ∈ l.map pyLower ∧ z ∉ seen := by
  induction l with
  | nil => intro seen z; simp [dedupCI]
  | cons n t ih =>
    intro seen z
    by_cases h : pyLower n ∈ seen
    · rw [dedupCI, if_pos h]
      rw [ih seen z]
      simp only [List.map_cons, List.mem_cons]
      constructor
      · rintro ⟨hz, hs⟩
        exact ⟨Or.inr hz, hs⟩
      · rintro ⟨hz | hz, hs⟩
        · exact absurd (hz ▸ h) hs
        · exact ⟨hz, hs⟩
    · rw [dedupCI, if_neg h]
      simp only [List.map_cons, List.mem_cons]
      rw [ih (pyLower n :: seen) z]
      constructor
      · rintro (rfl | ⟨hz, hs⟩)
        · exact ⟨Or.inl rfl, h⟩
        · exact ⟨Or.inr hz, fun hzs => hs (List.mem_cons_of_mem _ hzs)⟩
      · rintro ⟨hz | hz, hs⟩
        · exact Or.inl hz
        · by_cases hzn : z = pyLower n
          · exact Or.inl hzn
          · exact Or.inr ⟨hz, by simp [hzn, hs]⟩

theorem dedupCI_lower_nodup (l : List String) :
    ∀ seen, ((dedupCI seen l).map pyLower).Nodup
      ∧ ∀ z ∈ (dedupCI seen l).map pyLower, z ∉ seen := by
  induction l with
  | nil => intro seen; simp [dedupCI]
  | cons n t ih =>
    intro seen
    by_cases h : pyLower n ∈ seen
    · rw [dedupCI, if_pos h]
      exact ih seen
    · rw [dedupCI, if_neg h]
      obtain ⟨hnd, hni⟩ := ih (pyLower n :: seen)
      simp only [List.map_cons]
      refine ⟨List.nodup_cons.mpr ⟨?_, hnd⟩, ?_⟩
      · intro hmem
        exact hni _ hmem (List.mem_cons_self _ _)
      · intro z hz
        rcases List.mem_cons.mp hz with rfl | hz'
        · exact h
        · exact fun hzs => hni z hz' (List.mem_cons_of_mem _ hzs)

theorem dedupCI_first_wins (l : List String) :
    ∀ seen, ∀ x ∈ dedupCI seen l,
      pyLower x ∉ seen ∧ l.find? (fun y => pyLower y == pyLower x) = some x := by
  induction l with
  | nil => intro seen x hx; simp [dedupCI] at hx
  | cons n t ih =>
    intro seen x hx
    by_cases h : pyLower n ∈ seen
    · rw [dedupCI, if_pos h] at hx
      obtain ⟨hxs, hfind⟩ := ih seen x hx
      refine ⟨hxs, ?_⟩
      have hne : (pyLower n == pyLower x) = false :=
        beq_eq_false_iff_ne.mpr (fun hb => hxs (hb ▸ h))
      simp only [List.find?, hne]
      exact hfind
    · rw [dedupCI, if_neg h] at hx
      rcases List.mem_cons.mp hx with rfl | hx'
      · refine ⟨h, ?_⟩
        simp only [List.find?, beq_self_eq_true]
      · obtain ⟨hxs, hfind⟩ := ih _ x hx'
        have hne : (pyLower n == pyLower x) = false :=
          beq_eq_false_iff_ne.mpr
            (fun he => hxs (he.symm ▸ List.mem_cons_self _ _))
        refine ⟨fun hs => hxs (List.mem_cons_of_mem _ hs), ?_⟩
        simp only [List.find?, hne]
        exact hfind

theorem dedupCI_length (l : List String) :
    (dedupCI [] l).length = (l.map pyLower).dedup.length := by
  have hnd := (dedupCI_lower_nodup l []).1
  calc (dedupCI [] l).length
      = ((dedupCI [] l).map pyLower).length := (List.length_map _ _).symm
    _ = ((dedupCI [] l).map pyLower).toFinset.card :=
        (List.toFinset_card_of_nodup hnd).symm
    _ = ((l.map pyLower).toFinset).card := by
        congr 1
        ext z
        simp only [List.mem_toFinset]
        rw [dedupCI_lower_mem l [] z]
        simp
    _ = (l.map pyLower).dedup.length := by
        rw [← List.toFinset_card_of_nodup (List.nodup_dedup _)]
        congr 1
        ext z
        simp

theorem filteredNames_mem (anchors : List String) :
    ∀ n ∈ filteredNames anchors,
      (∃ a ∈ anchors, n = normalizeWS a) ∧ 2 ≤ n.length ∧ n.length ≤ 60 := by
  intro n hn
  unfold filteredNames at hn
  simp only [List.mem_filterMap] at hn
  obtain ⟨a, ha, hfa⟩ := hn
  by_cases h : 2 ≤ (normalizeWS a).length ∧ (normalizeWS a).length ≤ 60
  · rw [if_pos h] at hfa
    have hna : n = normalizeWS a := (Option.some.inj hfa).symm
    exact ⟨⟨a, ha, hna⟩, hna ▸ h⟩
  · rw [if_neg h] at hfa
    exact Option.noConfusion hfa

/-! ## Claim C7: first-pass (anchor-link) dedup lemmas -/

theorem entriesDedup_cons_skip (seen : List String) (text href : String)
    (rest : List (String × String))
    (h : ¬(2 ≤ (normalizeWS text).length ∧ (normalizeWS text).length ≤ 60)
         ∨ ¬startsWithHttp href = true) :
    entriesDedup seen ((text, href) :: rest) = entriesDedup seen rest := by
  rcases h with h | h
  · simp [entriesDedup, h]
  · by_cases hlen : 2 ≤ (normalizeWS text).length ∧ (normalizeWS text).length ≤ 60
    · simp [entriesDedup, hlen, h]
    · simp [entriesDedup, hlen]

theorem entriesDedup_cons_seen (seen : List String) (text href : String)
    (rest : List (String × String))
    (hlen : 2 ≤ (normalizeWS text).length ∧ (normalizeWS text).length ≤ 60)
    (hhttp : startsWithHttp href = true)
    (hseen : pyLower (normalizeWS text) ∈ seen) :
    entriesDedup seen ((text, href) :: rest) = entriesDedup seen rest := by
  simp [entriesDedup, hlen, hhttp, hseen]

theorem entriesDedup_cons_keep (seen : List String) (text href : String)
    (rest : List (String × String))
    (hlen : 2 ≤ (normalizeWS text).length ∧ (normalizeWS text).length ≤ 60)
    (hhttp : startsWithHttp href = true)
    (hseen : pyLower (normalizeWS text) ∉ seen) :
    entriesDedup seen ((text, href) :: rest)
      = (normalizeWS text, href)
          :: entriesDedup (pyLower (normalizeWS text) :: seen) rest := by
  simp [entriesDedup, hlen, hhttp, hseen]

theorem filteredEntries_cons_skip (text href : String) (rest : List (String × String))
    (h : ¬((2 ≤ (normalizeWS text).length ∧ (normalizeWS text).length ≤ 60)
            ∧ startsWithHttp href = true)) :
    filteredEntries ((text, href) :: rest) = filteredEntries rest := by
  simp only [filteredEntries, List.filterMap_cons]
  rw [if_neg h]

theorem filteredEntries_cons_keep (text href : String) (rest : List (String × String))
    (hlen : 2 ≤ (normalizeWS text).length ∧ (normalizeWS text).length ≤ 60)
    (hhttp : startsWithHttp href = true) :
    filteredEntries ((text, href) :: rest)
      = (normalizeWS text, href) :: filteredEntries rest := by
  simp only [filteredEntries, List.filterMap_cons]
  rw [if_pos ⟨hlen, hhttp⟩]

theorem filteredEntries_mem (links : List (String × String)) :
    ∀ e ∈ filteredEntries links,
      (∃ a ∈ links, e.1 = normalizeWS a.1 ∧ e.2 = a.2)
      ∧ 2 ≤ e.1.length ∧ e.1.length ≤ 60 ∧ startsWithHttp e.2 = true := by
  intro e he
  unfold filteredEntries at he
  simp only [List.mem_filterMap] at he
  obtain ⟨a, ha, hfa⟩ := he
  by_cases h : (2 ≤ (normalizeWS a.1).length ∧ (normalizeWS a.1).length ≤ 60)
      ∧ startsWithHttp a.2 = true
  · rw [if_pos h] at hfa
    have he2 : e = (normalizeWS a.1, a.2) := (Option.some.inj hfa).symm
    subst he2
    exact ⟨⟨a, ha, rfl, rfl⟩, h.1.1, h.1.2, h.2⟩
  · rw [if_neg h] at hfa
    exact Option.noConfusion hfa

theorem entriesDedup_sublist (links : List (String × String)) :
    ∀ seen, (entriesDedup seen links).Sublist (filteredEntries links) := by
  induction links with
  | nil => intro seen; simp [entriesDedup, filteredEntries]
  | cons a rest ih =>
    intro seen
    obtain ⟨text, href⟩ := a
    by_cases hlen : 2 ≤ (normalizeWS text).length ∧ (normalizeWS text).length ≤ 60
    · by_cases hhttp : startsWithHttp href = true
      · rw [filteredEntries_cons_keep text href rest hlen hhttp]
        by_cases hseen : pyLower (normalizeWS text) ∈ seen
        · rw [entriesDedup_cons_seen seen text href rest hlen hhttp hseen]
          exact (ih seen).cons _
        · rw [entriesDedup_cons_keep seen text href rest hlen hhttp hseen]
          exact (ih _).cons₂ _
      · rw [entriesDedup_cons_skip seen text href rest (Or.inr hhttp),
            filteredEntries_cons_skip text href rest (fun hc => hhttp hc.2)]
        exact ih seen
    · rw [entriesDedup_cons_skip seen text href rest (Or.inl hlen),
          filteredEntries_cons_skip text href rest (fun hc => hlen hc.1)]
      exact ih seen

theorem entriesDedup_lower_mem (links : List (String × String)) :
    ∀ seen z, z ∈ (entriesDedup seen links).map (fun e => pyLower e.1)
      ↔ z ∈ (filteredEntries links).map (fun e => pyLower e.1) ∧ z ∉ seen := by
  induction links with
  | nil => intro seen z; simp [entriesDedup, filteredEntries]
  | cons a rest ih =>
    intro seen z
    obtain ⟨text, href⟩ := a
    by_cases hlen : 2 ≤ (normalizeWS text).length ∧ (normalizeWS text).length ≤ 60
    · by_cases hhttp : startsWithHttp href = true
      · rw [filteredEntries_cons_keep text href rest hlen hhttp]
        by_cases hseen : pyLower (normalizeWS text) ∈ seen
        · rw [entriesDedup_cons_seen seen text href rest hlen hhttp hseen]
          rw [ih seen z]
          simp only [List.map_cons, List.mem_cons]
          constructor
          · rintro ⟨hz, hs⟩
            exact ⟨Or.inr hz, hs⟩
          · rintro ⟨hz | hz, hs⟩
            · exact absurd (hz ▸ hseen) hs
            · exact ⟨hz, hs⟩
        · rw [entriesDedup_cons_keep seen text href rest hlen hhttp hseen]
          simp only [List.map_cons, List.mem_cons]
          rw [ih (pyLower (normalizeWS text) :: seen) z]
          constructor
          · rintro (rfl | ⟨hz, hs⟩)
            · exact ⟨Or.inl rfl, hseen⟩
            · exact ⟨Or.inr hz, fun hzs => hs (List.mem_cons_of_mem _ hzs)⟩
          · rintro ⟨hz | hz, hs⟩
            · exact Or.inl hz
            · by_cases hzn : z = pyLower (normalizeWS text)
              · exact Or.inl hzn
              · exact Or.inr ⟨hz, by simp [hzn, hs]⟩
      · rw [entriesDedup_cons_skip seen text href rest (Or.inr hhttp),
            filteredEntries_cons_skip text href rest (fun hc => hhttp hc.2)]
        exact ih seen z
    · rw [entriesDedup_cons_skip seen text href rest (Or.inl hlen),
          filteredEntries_cons_skip text href rest (fun hc => hlen hc.1)]
      exact ih seen z

theorem entriesDedup_lower_nodup (links : List (String × String)) :
    ∀ seen, ((entriesDedup seen links).map (fun e => pyLower e.1)).Nodup
      ∧ ∀ z ∈ (entriesDedup seen links).map (fun e => pyLower e.1), z ∉ seen := by
  induction links with
  | nil => intro seen; simp [entriesDedup]
  | cons a rest ih =>
    intro seen
    obtain ⟨text, href⟩ := a
    by_cases hlen : 2 ≤ (normalizeWS text).length ∧ (normalizeWS text).length ≤ 60
    · by_cases hhttp : startsWithHttp href = true
      · by_cases hseen : pyLower (normalizeWS text) ∈ seen
        · rw [entriesDedup_cons_seen seen text href rest hlen hhttp hseen]
          exact ih seen
        · rw [entriesDedup_cons_keep seen text href rest hlen hhttp hseen]
          obtain ⟨hnd, hni⟩ := ih (pyLower (normalizeWS text) :: seen)
          simp only [List.map_cons]
          refine ⟨List.nodup_cons.mpr ⟨?_, hnd⟩, ?_⟩
          · intro hmem
            exact hni _ hmem (List.mem_cons_self _ _)
          · intro z hz
            rcases List.mem_cons.mp hz with rfl | hz'
            · exact hseen
            · exact fun hzs => hni z hz' (List.mem_cons_of_mem _ hzs)
      · rw [entriesDedup_cons_skip seen text href rest (Or.inr hhttp)]
        exact ih seen
    · rw [entriesDedup_cons_skip seen text href rest (Or.inl hlen)]
      exact ih seen

theorem entriesDedup_first_wins (links : List (String × String)) :
    ∀ seen, ∀ e ∈ entriesDedup seen links,
      pyLower e.1 ∉ seen
      ∧ (filteredEntries links).find? (fun f => pyLower f.1 == pyLower e.1) = some e := by
  induction links with
  | nil => intro seen e he; simp [entriesDedup] at he
  | cons a rest ih =>
    intro seen e he
    obtain ⟨text, href⟩ := a
    by_cases hlen : 2 ≤ (normalizeWS text).length ∧ (normalizeWS text).length ≤ 60
    · by_cases hhttp : startsWithHttp href = true
      · rw [filteredEntries_cons_keep text href rest hlen hhttp]
        by_cases hseen : pyLower (normalizeWS text) ∈ seen
        · rw [entriesDedup_cons_seen seen text href rest hlen hhttp hseen] at he
          obtain ⟨hes, hfind⟩ := ih seen e he
          refine ⟨hes, ?_⟩
          have hne : (pyLower (normalizeWS text) == pyLower e.1) = false :=
            beq_eq_false_iff_ne.mpr (fun hb => hes (hb ▸ hseen))
          simp only [List.find?, hne]
          exact hfind
        · rw [entriesDedup_cons_keep seen text href rest hlen hhttp hseen] at he
          rcases List.mem_cons.mp he with rfl | he'
          · refine ⟨hseen, ?_⟩
            simp only [List.find?, beq_self_eq_true]
          · obtain ⟨hes, hfind⟩ := ih _ e he'
            have hne : (pyLower (normalizeWS text) == pyLower e.1) = false :=
              beq_eq_false_iff_ne.mpr
                (fun hb => hes (List.mem_cons.mpr (Or.inl hb.symm)))
            refine ⟨fun hs => hes (List.mem_cons_of_mem _ hs), ?_⟩
            simp only [List.find?, hne]
            exact hfind
      · rw [entriesDedup_cons_skip seen text href rest (Or.inr hhttp)] at he
        rw [filteredEntries_cons_skip text href rest (fun hc => hhttp hc.2)]
        exact ih seen e he
    · rw [entriesDedup_cons_skip seen text href rest (Or.inl hlen)] at he
      rw [filteredEntries_cons_skip text href rest (fun hc => hlen hc.1)]
      exact ih seen e he

theorem entriesDedup_length (links : List (String × String)) :
    (entriesDedup [] links).length
      = ((filteredEntries links).map (fun e => pyLower e.1)).dedup.length := by
  have hnd := (entriesDedup_lower_nodup links []).1
  calc (entriesDedup [] links).length
      = ((entriesDedup [] links).map (fun e => pyLower e.1)).length :=
        (List.length_map _ _).symm
    _ = ((entriesDedup [] links).map (fun e => pyLower e.1)).toFinset.card :=
        (List.toFinset_card_of_nodup hnd).symm
    _ = (((filteredEntries links).map (fun e => pyLower e.1)).toFinset).card := by
        congr 1
        ext z
        simp only [List.mem_toFinset]
        rw [entriesDedup_lower_mem links [] z]
        simp
    _ = ((filteredEntries links).map (fun e => pyLower e.1)).dedup.length := by
        rw [← List.toFinset_card_of_nodup (List.nodup_dedup _)]
        congr 1
        ext z
        simp

/-! ## Claim C7 -/

/-- C7: in both generic passes the output names are whitespace-normalised
fixed points with length strictly between 1 and 61, case-insensitively
unique with the first occurrence winning, listed in first-seen order, and
the output length equals the number of distinct lowercased forms among
the cleaned length-filtered (and, in the first pass, http-filtered)
anchor entries; first-pass websites are absolute http(s) targets. -/
theorem c7_generic_extractor_dedup (anchors : List String)
    (links : List (String × String)) (doc : List HtmlEvent) :
    extract_company_names_from_html doc = clean_names (anchorTexts doc)
    ∧ extract_company_entries_from_html doc = entriesDedup [] (anchorLinks doc)
    ∧ (∀ n ∈ clean_names anchors,
        normalizeWS n = n ∧ 2 ≤ n.length ∧ n.length ≤ 60)
    ∧ ((clean_names anchors).map pyLower).Nodup
    ∧ (clean_names anchors).Sublist (filteredNames anchors)
    ∧ (∀ x ∈ clean_names anchors,
        (filteredNames anchors).find? (fun y => pyLower y == pyLower x) = some x)
    ∧ (clean_names anchors).length = ((filteredNames anchors).map pyLower).dedup.length
    ∧ (∀ e ∈ entriesDedup [] links,
        normalizeWS e.1 = e.1 ∧ 2 ≤ e.1.length ∧ e.1.length ≤ 60
          ∧ startsWithHttp e.2 = true)
    ∧ ((entriesDedup [] links).map (fun e => pyLower e.1)).Nodup
    ∧ (entriesDedup [] links).Sublist (filteredEntries links)
    ∧ (∀ e ∈ entriesDedup [] links,
        (filteredEntries links).find? (fun f => pyLower f.1 == pyLower e.1) = some e)
    ∧ (entriesDedup [] links).length
        = ((filteredEntries links).map (fun e => pyLower e.1)).dedup.length := by
  refine ⟨rfl, rfl, ?_, ?_, ?_, ?_, ?_, ?_, ?_, ?_, ?_, ?_⟩
  · intro n hn
    have hmem : n ∈ filteredNames anchors :=
      (dedupCI_sublist (filteredNames anchors) []).subset hn
    obtain ⟨⟨a, _, hna⟩, hlen⟩ := filteredNames_mem anchors n hmem
    exact ⟨hna ▸ normalizeWS_idem a, hlen⟩
  · exact (dedupCI_lower_nodup (filteredNames anchors) []).1
  · exact dedupCI_sublist (filteredNames anchors) []
  · intro x hx
    exact (dedupCI_first_wins (filteredNames anchors) [] x hx).2
  · exact dedupCI_length (filteredNames anchors)
  · intro e he
    have hmem : e ∈ filteredEntries links :=
      (entriesDedup_sublist links []).subset he
    obtain ⟨⟨a, _, hna, _⟩, hlen1, hlen2, hhttp⟩ := filteredEntries_mem links e hmem
    exact ⟨hna ▸ normalizeWS_idem a.1, hlen1, hlen2, hhttp⟩
  · exact (entriesDedup_lower_nodup links []).1
  · exact entriesDedup_sublist links []
  · intro e he
    exact (entriesDedup_first_wins links [] e he).2
  · exact entriesDedup_length links

theorem c7_witness :
    "Acme Corp" ∈ clean_names ["Acme  Corp", "ACME CORP", "x"]
    ∧ normalizeWS "Acme Corp" = "Acme Corp"
    ∧ (clean_names ["Acme  Corp", "ACME CORP", "x"]).length
        = ((filteredNames ["Acme  Corp", "ACME CORP", "x"]).map pyLower).dedup.length
    ∧ ("Flux Charge", "https://fluxcharge.example.com") ∈ entriesDedup [] demoLinks
    ∧ normalizeWS "Flux Charge" = "Flux Charge"
    ∧ startsWithHttp "https://fluxcharge.example.com" = true
    ∧ (entriesDedup [] demoLinks).length
        = ((filteredEntries demoLinks).map (fun e => pyLower e.1)).dedup.length := by
  have hm : "Acme Corp" ∈ clean_names ["Acme  Corp", "ACME CORP", "x"] := by decide
  have hm2 : ("Flux Charge", "https://fluxcharge.example.com") ∈ entriesDedup [] demoLinks := by
    decide
  obtain ⟨-, -, h3, -, -, -, h7, h8, -, -, -, h12⟩ :=
    c7_generic_extractor_dedup ["Acme  Corp", "ACME CORP", "x"] demoLinks []
  obtain ⟨he1, -, -, he4⟩ := h8 _ hm2
  exact ⟨hm, (h3 _ hm).1, h7, hm2, he1, he4, h12⟩

/-! ## Claim C9 -/

/-- C9: enrich_from_vc_profile is a no-op when the description is already
non-empty, when the profile URL is empty, or when the fetch fails; in all
cases name, last_round, source, profile_url (and stage, energy_keywords)
are untouched, and a non-empty website is never overwritten. -/
theorem c9_profile_enrichment_frame (c : Company) (fetched : Option (List HtmlEvent)) :
    (c.description ≠ "" → enrich_from_vc_profile c fetched = c)
    ∧ (c.profile_url = "" → enrich_from_vc_profile c fetched = c)
    ∧ (fetched = none → enrich_from_vc_profile c fetched = c)
    ∧ (enrich_from_vc_profile c fetched).name = c.name
    ∧ (enrich_from_vc_profile c fetched).last_round = c.last_round
    ∧ (enrich_from_vc_profile c fetched).source = c.source
    ∧ (enrich_from_vc_profile c fetched).profile_url = c.profile_url
    ∧ (enrich_from_vc_profile c fetched).stage = c.stage
    ∧ (enrich_from_vc_profile c fetched).energy_keywords = c.energy_keywords
    ∧ (c.website ≠ "" → (enrich_from_vc_profile c fetched).website = c.website) := by
  refine ⟨?_, ?_, ?_, ?_⟩
  · intro h1
    unfold enrich_from_vc_profile
    rw [if_pos h1]
  · intro h2
    unfold enrich_from_vc_profile
    by_cases h1 : c.description ≠ ""
    · rw [if_pos h1]
    · rw [if_neg h1, if_pos h2]
  · intro h3
    subst h3
    unfold enrich_from_vc_profile
    by_cases h1 : c.description ≠ ""
    · rw [if_pos h1]
    · rw [if_neg h1]
      by_cases h2 : c.profile_url = ""
      · rw [if_pos h2]
      · rw [if_neg h2]
  · unfold enrich_from_vc_profile
    by_cases h1 : c.description ≠ ""
    · rw [if_pos h1]
      exact ⟨rfl, rfl, rfl, rfl, rfl, rfl, fun _ => rfl⟩
    · rw [if_neg h1]
      by_cases h2 : c.profile_url = ""
      · rw [if_pos h2]
        exact ⟨rfl, rfl, rfl, rfl, rfl, rfl, fun _ => rfl⟩
      · rw [if_neg h2]
        cases fetched with
        | none => exact ⟨rfl, rfl, rfl, rfl, rfl, rfl, fun _ => rfl⟩
        | some doc =>
          simp only []
          refine ⟨?_, ?_, ?_, ?_, ?_, ?_, ?_⟩ <;> (repeat' split) <;> simp_all

theorem c9_witness :
    gridCo.description ≠ ""
    ∧ enrich_from_vc_profile gridCo none = gridCo := by
  have h : gridCo.description ≠ "" := by decide
  exact ⟨h, (c9_profile_enrichment_frame gridCo none).1 h⟩

/-! ## Claim C8 -/

/-- C8: scrape_portfolio returns exactly the supplied fallback when there
is no document or when the selected extractor (including the generic
second pass) yields zero entries, and it never returns an empty list in
place of a non-empty fallback. -/
theorem c8_fallback_on_no_signal (url source : String) (fallback : List Company)
    (fetched : Option (List HtmlEvent)) :
    (fetched = none → scrape_portfolio url source fallback fetched = fallback)
    ∧ (∀ doc, fetched = some doc →
        ((strContains url "energyimpactpartners.com" = true → eipEntries doc = [] →
            scrape_portfolio url source fallback fetched = fallback)
         ∧ (strContains url "energyimpactpartners.com" = false →
            strContains url "setventures.com" = true → setEntries doc = [] →
            scrape_portfolio url source fallback fetched = fallback)
         ∧ (strContains url "energyimpactpartners.com" = false →
            strContains url "setventures.com" = false →
            extract_company_entries_from_html doc = [] →
            extract_company_names_from_html doc = [] →
            scrape_portfolio url source fallback fetched = fallback)))
    ∧ (fallback ≠ [] → scrape_portfolio url source fallback fetched ≠ []) := by
  refine ⟨?_, ?_, ?_⟩
  · intro h
    subst h
    rfl
  · intro doc h
    subst h
    unfold scrape_portfolio
    refine ⟨?_, ?_, ?_⟩
    · intro hE hentries
      simp [hE, hentries]
    · intro hE hS hentries
      simp [hE, hS, hentries]
    · intro hE hS hentries hnames
      simp [hE, hS, hentries, hnames]
  · intro hfb
    cases fetched with
    | none => exact hfb
    | some doc =>
      unfold scrape_portfolio
      cases hE : strContains url "energyimpactpartners.com" with
      | true =>
        simp only [hE, if_true]
        split
        · exact hfb
        · rename_i hne
          simpa [List.isEmpty_iff] using hne
      | false =>
        cases hS : strContains url "setventures.com" with
        | true =>
          simp only [hE, hS, Bool.false_eq_true, if_false, if_true]
          split
          · exact hfb
          · rename_i hne
            simpa [List.isEmpty_iff] using hne
        | false =>
          simp only [hE, hS, Bool.false_eq_true, if_false]
          split
          · rename_i hne
            simp only [List.isEmpty_iff] at hne
            simp [List.map_eq_nil, hne]
          · split
            · exact hfb
            · rename_i hne2
              simp only [List.isEmpty_iff] at hne2
              simp [List.map_eq_nil, hne2]

theorem c8_witness :
    scrape_portfolio "https://example.com/page" "SRC" [gridCo] none = [gridCo] :=
  (c8_fallback_on_no_signal "https://example.com/page" "SRC" [gridCo] none).1 rfl

/-! ## Claim C10 -/

/-- C10: on a correct-length parsed array, each non-boolean element is
individually treated as false while boolean elements keep their value. -/
theorem c10_per_element_fail_closed (ds : List String) (items : List Json)
    (hne : ds ≠ []) (hlen : items.length = ds.length) :
    (llm_filter_energy_bulk ds (some (Json.jarr items))).length = ds.length
    ∧ ∀ i, i < items.length →
        ((∀ b, items.get? i ≠ some (Json.jbool b)) →
          (llm_filter_energy_bulk ds (some (Json.jarr items))).get? i = some false)
        ∧ (∀ b, items.get? i = some (Json.jbool b) →
          (llm_filter_energy_bulk ds (some (Json.jarr items))).get? i = some b) := by
  have hout : llm_filter_energy_bulk ds (some (Json.jarr items)) =
      items.map (fun item => match item with | Json.jbool b => b | _ => false) := by
    unfold llm_filter_energy_bulk
    simp [hne, hlen]
  constructor
  · rw [hout, List.length_map, hlen]
  · intro i hi
    obtain ⟨x, hx⟩ : ∃ x, items.get? i = some x := ⟨_, List.get?_eq_get hi⟩
    rw [hout, List.get?_map, hx]
    constructor
    · intro hnb
      cases x with
      | jbool b => exact absurd rfl (hnb b)
      | jnull => rfl
      | jnum n => rfl
      | jstr s => rfl
      | jarr l => rfl
      | jobj o => rfl
    · intro b hb
      have hxb : x = Json.jbool b := Option.some.inj hb
      subst hxb
      rfl

/-! ## Claim C3 -/

theorem enumFrom_filter_map_snd (q : Company → Bool) (l : List Company) :
    ∀ n, ((List.enumFrom n l).filter (fun p => q p.2)).map (fun p => p.2) = l.filter q := by
  induction l with
  | nil => intro n; rfl
  | cons a t ih =>
    intro n
    by_cases hq : q a <;> simp [List.enumFrom, List.filter_cons, hq, ih (n + 1)]

theorem eligible_pairs_map_snd (companies : List Company) :
    (eligible_pairs companies).map (fun p => p.2) = survivors companies := by
  exact enumFrom_filter_map_snd
    (fun c => is_round_eligible c.last_round && !c.description.isEmpty) companies 0

theorem batch_descriptions_eq_survivors (companies : List Company) :
    batch_descriptions companies = (survivors companies).map (fun c => c.description) := by
  unfold batch_descriptions
  rw [← eligible_pairs_map_snd, List.map_map]
  rfl

theorem selectByFlags_replicate_false (cs : List Company) (n : Nat) :
    selectByFlags cs (List.replicate n false) = [] := by
  induction cs generalizing n with
  | nil => rfl
  | cons c t ih =>
    cases n with
    | zero => rfl
    | succ m => simpa [selectByFlags, List.replicate, List.filterMap] using ih m

/-- C3: filter_relevant submits exactly the survivor descriptions as one
ordered batch; a same-length boolean reply keeps exactly the true-flagged
survivors in order; an unavailable classifier or a wrong-length reply
yields the empty output. -/
theorem c3_batch_classification_join (companies : List Company) :
    batch_descriptions companies = (survivors companies).map (fun c => c.description)
    ∧ (∀ bs : List Bool, bs.length = (survivors companies).length →
        filter_relevant companies (some (Json.jarr (bs.map Json.jbool))) =
          selectByFlags (survivors companies) bs)
    ∧ filter_relevant companies none = []
    ∧ (∀ items : List Json, items.length ≠ (survivors companies).length →
        filter_relevant companies (some (Json.jarr items)) = []) := by
  have hdesc := batch_descriptions_eq_survivors companies
  have hlen : (batch_descriptions companies).length = (survivors companies).length := by
    rw [hdesc, List.length_map]
  refine ⟨hdesc, ?_, ?_, ?_⟩
  · intro bs hbs
    unfold filter_relevant
    by_cases hemp : (batch_descriptions companies).isEmpty
    · have hsurv : survivors companies = [] := by
        have hb : batch_descriptions companies = [] := List.isEmpty_iff.mp hemp
        have h0 : (survivors companies).length = 0 := by
          rw [← hlen, hb]
          rfl
        exact List.eq_nil_of_length_eq_zero h0
      rw [if_pos hemp, hsurv]
      rfl
    · rw [if_neg hemp]
      have hllm : llm_filter_energy_bulk (batch_descriptions companies)
          (some (Json.jarr (bs.map Json.jbool))) = bs := by
        unfold llm_filter_energy_bulk
        rw [if_neg hemp]
        have hl : (bs.map Json.jbool).length = (batch_descriptions companies).length := by
          rw [List.length_map, hbs, hlen]
        simp [hl]
        have hcomp : ((fun item => match item with | Json.jbool b => b | _ => false) ∘ Json.jbool)
            = fun b : Bool => b := rfl
        rw [hcomp]
        exact List.map_id' bs
      rw [hllm, eligible_pairs_map_snd]
      rfl
  · unfold filter_relevant
    by_cases hemp : (batch_descriptions companies).isEmpty
    · rw [if_pos hemp]
    · rw [if_neg hemp]
      have hllm : llm_filter_energy_bulk (batch_descriptions companies) none =
          List.replicate (batch_descriptions companies).length false := by
        unfold llm_filter_energy_bulk
        rw [if_neg hemp]
      rw [hllm, eligible_pairs_map_snd]
      exact selectByFlags_replicate_false _ _
  · intro items hitems
    unfold filter_relevant
    by_cases hemp : (batch_descriptions companies).isEmpty
    · rw [if_pos hemp]
    · rw [if_neg hemp]
      have hllm : llm_filter_energy_bulk (batch_descriptions companies)
          (some (Json.jarr items)) =
          List.replicate (batch_descriptions companies).length false := by
        unfold llm_filter_energy_bulk
        rw [if_neg hemp]
        have : items.length ≠ (batch_descriptions companies).length := by
          rw [hlen]; exact hitems
        simp [this]
      rw [hllm, eligible_pairs_map_snd]
      exact selectByFlags_replicate_false _ _

theorem c3_witness :
    ([true] : List Bool).length = (survivors [gridCo, lateCo]).length
    ∧ filter_relevant [gridCo, lateCo] (some (Json.jarr [Json.jbool true])) =
        selectByFlags (survivors [gridCo, lateCo]) [true] := by
  have h : ([true] : List Bool).length = (survivors [gridCo, lateCo]).length := by decide
  exact ⟨h, (c3_batch_classification_join [gridCo, lateCo]).2.1 [true] h⟩

theorem c10_witness :
    (llm_filter_energy_bulk ["offshore wind", "fintech"]
      (some (Json.jarr [Json.jstr "yes", Json.jbool true]))).get? 0 = some false
    ∧ (llm_filter_energy_bulk ["offshore wind", "fintech"]
      (some (Json.jarr [Json.jstr "yes", Json.jbool true]))).get? 1 = some true := by
  have h := c10_per_element_fail_closed ["offshore wind", "fintech"]
    [Json.jstr "yes", Json.jbool true] (by simp) rfl
  refine ⟨(h.2 0 (by norm_num)).1 ?_, (h.2 1 (by norm_num)).2 true rfl⟩
  intro b hb
  simp at hb
